import Mathlib

/-!
Verification of the GHEX halo-exchange core: a shallow embedding of the
persistent allocator, the MPI transport futures, the callback registry and
its progress loop, the message buffers, the pattern-setup tag assignment,
the communication object's ordered-id comparator, its pack/unpack loops and
the temporal structure of `exchange`/`handle::wait`, together with theorems
settling the specified properties of each component.
-/

set_option linter.unusedVariables false

namespace GhexVerif

/-! ### Persistent allocator (`include/allocator/persistent_allocator.hpp`)

Pointers are modelled as natural numbers; the base allocator hands out fresh
addresses (cached blocks are never returned to it, so it can never reuse one).
-/

/-- Mirrors `ghex::allocator::persistent_pointer<T>`: the pointer and the
allocation size it was created with. -/
structure PersistentPointer where
  ptr : Nat
  n : Nat
deriving DecidableEq, Repr

/-- State of `ghex::allocator::persistent_allocator`: the free multiset
(`std::multiset` ordered by size, `compare_size`), the used set
(`std::set` ordered by pointer value, `compare_ptr`) and the base
allocator's next fresh address. -/
structure AllocState where
  free_alloc : List PersistentPointer
  used_alloc : List PersistentPointer
  next_ptr : Nat
deriving Repr

/-- `std::multiset` insertion for `free_alloc`: keeps the list sorted by
allocation size (equal sizes: inserted after existing ones, as at the upper
bound). -/
def insertBySize (x : PersistentPointer) : List PersistentPointer → List PersistentPointer
  | [] => [x]
  | y :: l => if x.n < y.n then x :: y :: l else y :: insertBySize x l

/-- `std::set` insertion for `used_alloc`: keeps the list sorted by pointer
value; an element with an already-present pointer is not inserted. -/
def insertByPtr (x : PersistentPointer) : List PersistentPointer → List PersistentPointer
  | [] => [x]
  | y :: l =>
    if x.ptr < y.ptr then x :: y :: l
    else if x.ptr = y.ptr then y :: l
    else y :: insertByPtr x l

/-- Erase the first element satisfying `p` (the element the C++ code erases
through the iterator returned by `std::find_if`). -/
def eraseFirst (p : PersistentPointer → Bool) : List PersistentPointer → List PersistentPointer
  | [] => []
  | y :: l => if p y then l else y :: eraseFirst p l

/-- `persistent_allocator::allocate(n)`: scan the free multiset in ascending
size order for the first block with capacity at least `n`; if found move it to
the used set and return its pointer, otherwise obtain a fresh block from the
base allocator and record it as used. -/
def allocate (s : AllocState) (n : Nat) : Nat × AllocState :=
  match s.free_alloc.find? (fun x => decide (n ≤ x.n)) with
  | some x =>
    (x.ptr,
      { s with
        used_alloc := insertByPtr x s.used_alloc
        free_alloc := eraseFirst (fun y => decide (n ≤ y.n)) s.free_alloc })
  | none =>
    (s.next_ptr,
      { s with
        used_alloc := insertByPtr ⟨s.next_ptr, n⟩ s.used_alloc
        next_ptr := s.next_ptr + 1 })

/-- `persistent_allocator::deallocate(p, n)`: look the pointer up in the used
set; if it is not there, return without any change; otherwise move the stored
block (with its original capacity) to the free multiset. -/
def deallocate (s : AllocState) (p : Nat) : AllocState :=
  match s.used_alloc.find? (fun x => decide (x.ptr = p)) with
  | none => s
  | some x =>
    { s with
      free_alloc := insertBySize x s.free_alloc
      used_alloc := eraseFirst (fun y => decide (y.ptr = p)) s.used_alloc }

/-- A client-visible operation on the persistent allocator. -/
inductive AllocOp where
  | alloc (n : Nat)
  | dealloc (p : Nat)
deriving Repr

/-- The empty allocator (freshly constructed: both collections empty). -/
def initAllocState : AllocState := ⟨[], [], 0⟩

/-- Run a sequence of allocator operations, additionally recording the list of
distinct pointers handed out by `allocate` so far (ghost state for the
conservation property). -/
def runAlloc : AllocState → List Nat → List AllocOp → AllocState × List Nat
  | s, handed, [] => (s, handed)
  | s, handed, AllocOp.alloc n :: ops =>
    let r := allocate s n
    runAlloc r.2 (if r.1 ∈ handed then handed else handed ++ [r.1]) ops
  | s, handed, AllocOp.dealloc p :: ops => runAlloc (deallocate s p) handed ops

/-! ### Transport futures (`transport_layer/mpi/communicator.hpp`)

`MPI_Test(&req, &flag, &st)` sets `flag` to true exactly when the wrapped
non-blocking operation has completed; we model a request by its completion
state and `MPI_Test` by reading it. -/

/-- Completion state of a non-blocking MPI request. -/
inductive ReqState where
  | pending
  | completed
deriving DecidableEq, Repr

/-- The flag written by `MPI_Test`: true exactly for a completed request. -/
def mpiTestFlag : ReqState → Bool
  | ReqState.pending => false
  | ReqState.completed => true

/-- `mpi::my_dull_future::ready()`: calls `MPI_Test` and returns `!flag`
(the literal code is `return !flag;`). -/
def myDullFutureReady (r : ReqState) : Bool := !(mpiTestFlag r)

/-- `gridtools::ghex::mpi::_impl::mpi_future::ready()`: calls `MPI_Test`
and returns `flag`. -/
def mpiFutureReady (r : ReqState) : Bool := mpiTestFlag r

/-! ### Ordered domain id (`communication_object`)

`extended_domain_id_type::operator<` and `ordered_domain_id_t::operator<`,
with integer domain ids and tags. -/

/-- `pattern::extended_domain_id_type` (the fields that take part in the
comparison: `id` and `tag`; rank and address do not). -/
structure ExtendedDomainId where
  id : Int
  tag : Int
deriving DecidableEq, Repr

/-- `extended_domain_id_type::operator<`:
`id < other.id ? true : (id == other.id ? (tag < other.tag) : false)`. -/
def extendedIdLt (a b : ExtendedDomainId) : Bool :=
  if a.id < b.id then true else if a.id = b.id then decide (a.tag < b.tag) else false

/-- `communication_object::ordered_domain_id_t`: extended id plus byte size. -/
structure OrderedDomainId where
  m_domain_id : ExtendedDomainId
  m_size : Nat
deriving DecidableEq, Repr

/-- `ordered_domain_id_t::operator<` as written in the source:
`m_size < other.m_size ? true : (m_domain_id < other.m_domain_id)`. -/
def orderedIdLt (a b : OrderedDomainId) : Bool :=
  if a.m_size < b.m_size then true else extendedIdLt a.m_domain_id b.m_domain_id

/-- Modelled from the spec: the comparison the spec describes, the
lexicographic strict order on `(byte_size, extended_domain_id)` ("ordered by
`byte_size` first, then by extended id"). -/
def specOrderedIdLt (a b : OrderedDomainId) : Bool :=
  if a.m_size < b.m_size then true
  else if a.m_size = b.m_size then extendedIdLt a.m_domain_id b.m_domain_id
  else false

/-! ### Callback registry and `progress()` (`transport_layer/mpi/communicator.hpp`)

The registry is `std::unordered_map<MPI_Request, (callback, rank, tag)>`; we
model it as a list of entries with pairwise distinct request keys, in the
map's iteration order.  A callback may mutate the registry (it may post new
requests, which `emplace` new entries); its effect on the registry is
modelled as an arbitrary function. -/

/-- One registry entry: request key plus the rank and tag stored with the
callback. -/
structure CbEntry where
  req : Nat
  rank : Int
  tag : Int
deriving DecidableEq, Repr

/-- The callback registry in iteration order. -/
abbrev Registry := List CbEntry

/-- `std::unordered_map::emplace`: inserts only when no entry with the same
request key is present (a collision makes the insertion silently fail). -/
def emplaceEntry (r : Registry) (e : CbEntry) : Registry :=
  if r.any (fun x => x.req = e.req) then r else r ++ [e]

/-- Result of one `progress()` call: the boolean return value, the final
registry, and the entries whose callbacks were invoked. -/
structure ProgressResult where
  ret : Bool
  registry : Registry
  invoked : List CbEntry

/-- The `while` loop of `communicator::progress()`: walk the registry in
iteration order (`pre` holds the already-visited entries); at the first entry
whose request tests complete, erase it and only then run its callback
(modelled by `cbEffect`, which receives the registry the callback observes),
then `break`. -/
def progressLoop (completed : Nat → Bool) (cbEffect : CbEntry → Registry → Registry) :
    Registry → Registry → Registry × List CbEntry
  | pre, [] => (pre, [])
  | pre, e :: rest =>
    if completed e.req then (cbEffect e (pre ++ rest), [e])
    else progressLoop completed cbEffect (pre ++ [e]) rest

/-- `communicator::progress()`: run the loop, then return
`!(m_callbacks.size() == 0)` evaluated on the registry as left by the loop
(including anything the invoked callback registered). -/
def progress (completed : Nat → Bool) (cbEffect : CbEntry → Registry → Registry)
    (r : Registry) : ProgressResult :=
  let l := progressLoop completed cbEffect [] r
  ⟨decide (l.1.length ≠ 0), l.1, l.2⟩

/-! ### Message buffers

`gridtools::ghex::tl::message_buffer` (`ghex/transport_layer/message_buffer.hpp`)
and `mpi::message` (`transport_layer/mpi/message.hpp`).  The allocated storage
is modelled by an allocation identity `allocId`, bumped whenever a fresh block
is obtained from the allocator (so "pointer unchanged" is `allocId`
unchanged). -/

/-- `gridtools::ghex::tl::message_buffer`: capacity, size and storage identity. -/
structure MessageBuffer where
  capacity : Nat
  size : Nat
  allocId : Nat
deriving DecidableEq, Repr

/-- `message_buffer::reserve(n)`: no-op when `n <= capacity`, otherwise a
fresh allocation of `n` bytes replaces the storage (content not copied);
the size member is untouched. -/
def MessageBuffer.reserve (m : MessageBuffer) (n : Nat) : MessageBuffer :=
  if n ≤ m.capacity then m else ⟨n, m.size, m.allocId + 1⟩

/-- `message_buffer::resize(n)`: `reserve(n)` then `m_size = n`. -/
def MessageBuffer.resize (m : MessageBuffer) (n : Nat) : MessageBuffer :=
  { m.reserve n with size := n }

/-- `message_buffer::clear()`: `resize(0)`. -/
def MessageBuffer.clear (m : MessageBuffer) : MessageBuffer :=
  m.resize 0

/-- `mpi::message`: capacity, size and storage identity. -/
structure MpiMessage where
  m_capacity : Nat
  m_size : Nat
  allocId : Nat
deriving DecidableEq, Repr

/-- `mpi::message::empty()`: its body is the statement `m_size == 0;` — an
equality comparison whose result is discarded, hence no state change at all. -/
def MpiMessage.emptyOp (m : MpiMessage) : MpiMessage := m

/-- `mpi::message::resize(new_capacity)`: allocate a fresh block of
`new_capacity` bytes, copy the `m_size` used bytes, set the capacity;
the size is unchanged. -/
def MpiMessage.resize (m : MpiMessage) (newCapacity : Nat) : MpiMessage :=
  ⟨newCapacity, m.m_size, m.allocId + 1⟩

/-- The growth `(m_capacity+1)*1.2` truncated to `size_t`.  The source
computes it in `double`; for every capacity the double product lies strictly
below the exact value `(c+1)*6/5` (1.2 rounds down in binary), and we use the
exact truncated value, which agrees with the double for all small capacities
(in particular for the inputs considered here). -/
def growCapacity (c : Nat) : Nat := (c + 1) * 12 / 10

/-- `mpi::message::enqueue<T>(x)`: when the `sizeof(T)` new bytes do not fit,
`resize((m_capacity+1)*1.2)`; then write `x` at offset `m_size` and add
`sizeof(T)` to the size. -/
def MpiMessage.enqueue (m : MpiMessage) (tsize : Nat) : MpiMessage :=
  let m1 := if m.m_size + tsize > m.m_capacity then m.resize (growCapacity m.m_capacity) else m
  { m1 with m_size := m1.m_size + tsize }

/-! ### Pattern-setup tag assignment (`structured_pattern.hpp`)

The disambiguation loop walks every pattern and every one of its recv-halo
entries (in the recv map's iteration order) and consults a **single**
`std::map<int,int> tag_map` declared before the loop over patterns: an unseen
peer rank gets tag `0` and a map entry `0`; a seen one gets its incremented
counter.  Patterns are modelled by the list of peer ranks of their recv
entries, in iteration order. -/

/-- Lookup in the `std::map<int,int> tag_map` (association list). -/
def tagMapFind (m : List (Int × Nat)) (rank : Int) : Option Nat :=
  match m.find? (fun x => decide (x.1 = rank)) with
  | some x => some x.2
  | none => none

/-- Update the counter stored for `rank` (insert if absent). -/
def tagMapSet (m : List (Int × Nat)) (rank : Int) (v : Nat) : List (Int × Nat) :=
  match m with
  | [] => [(rank, v)]
  | x :: l => if x.1 = rank then (rank, v) :: l else x :: tagMapSet l rank v

/-- One iteration of the inner loop: assign the tag for one recv entry with
peer rank `rank` and update `tag_map`. -/
def assignTagStep (m : List (Int × Nat)) (rank : Int) : Nat × List (Int × Nat) :=
  match tagMapFind m rank with
  | none => (0, tagMapSet m rank 0)
  | some c => (c + 1, tagMapSet m rank (c + 1))

/-- The inner loop over one pattern's recv entries. -/
def assignTagsPattern (m : List (Int × Nat)) : List Int → List (Int × Nat) × List (Int × Nat)
  | [] => ([], m)
  | rank :: rest =>
    let s := assignTagStep m rank
    let r := assignTagsPattern s.2 rest
    ((rank, s.1) :: r.1, r.2)

/-- The outer loop over all patterns of the process, threading the shared
`tag_map`; returns the per-pattern lists of `(peer rank, assigned tag)`. -/
def assignTagsAll (m : List (Int × Nat)) : List (List Int) → List (List (Int × Nat)) × List (Int × Nat)
  | [] => ([], m)
  | pat :: pats =>
    let s := assignTagsPattern m pat
    let r := assignTagsAll s.2 pats
    (s.1 :: r.1, r.2)

/-- The tag-disambiguation phase as run by `make_pattern_impl::apply`:
`tag_map` starts empty. -/
def assignTags (pats : List (List Int)) : List (List (Int × Nat)) :=
  (assignTagsAll [] pats).1

/-- The number of earlier occurrences of each element: `occEnum l` pairs every
element of `l` with how many times the same value occurred before it. -/
def occEnum (seen : List Int) : List Int → List (Int × Nat)
  | [] => []
  | rank :: rest => (rank, seen.count rank) :: occEnum (seen ++ [rank]) rest

/-! ### Pack and unpack (`communication_object::pack` / `handle::unpack`)

A field descriptor (external collaborator contract) exposes
`data_type_size()`, `get(is, ptr)` writing `is.size() * data_type_size()`
bytes for the cells of the iteration space in the field's canonical cell
order, and `set(is, ptr)` reading them back.  We model a cell value as a
natural number, a byte as a natural number, an iteration space by its
canonical enumeration of (global) cells, and a field by its per-cell
contents together with its fixed-width byte encoding. -/

/-- An iteration space, represented by the canonical enumeration of its cells
used by the field descriptor's `get`/`set`. -/
structure IterSpace (κ : Type) where
  coords : List κ

/-- `iteration_space::size()`: the number of cells. -/
def IterSpace.size {κ : Type} (is : IterSpace κ) : Nat := is.coords.length

/-- A field descriptor: `dsize` is `data_type_size()`, `encode`/`decode` the
fixed-width byte (de)serialization of one value, `val` the field contents. -/
structure FieldDesc (κ : Type) where
  dsize : Nat
  encode : Nat → List Nat
  decode : List Nat → Nat
  val : κ → Nat

/-- The byte run a field descriptor produces for a list of cells: the
fixed-width encodings of the cell values, concatenated in cell order. -/
def encodeCells {κ : Type} (fd : FieldDesc κ) : List κ → List Nat
  | [] => []
  | c :: cs => fd.encode (fd.val c) ++ encodeCells fd cs

/-- `dd.get(is, ptr)`: the contiguous byte run for the cells of `is`. -/
def FieldDesc.get {κ : Type} (fd : FieldDesc κ) (is : IterSpace κ) : List Nat :=
  encodeCells fd is.coords

/-- `dd.set(is, ptr)`: walk the cells of `is`, decoding `dsize` bytes for each
from the byte run starting at `ptr` and storing the value into the field. -/
def FieldDesc.setCells {κ : Type} [DecidableEq κ] (fd : FieldDesc κ) :
    List κ → List Nat → FieldDesc κ
  | [], _ => fd
  | c :: cs, bytes =>
    FieldDesc.setCells
      { fd with val := Function.update fd.val c (fd.decode (bytes.take fd.dsize)) }
      cs (bytes.drop fd.dsize)

/-- `dd.set(is, ptr)` on an iteration space. -/
def FieldDesc.set {κ : Type} [DecidableEq κ] (fd : FieldDesc κ) (is : IterSpace κ)
    (bytes : List Nat) : FieldDesc κ :=
  fd.setCells is.coords bytes

/-- `communication_object::buffer_size`: outer loop over the iteration spaces,
inner loop over the field descriptors, summing `is.size() * dd.data_type_size()`. -/
def bufferSize {κ : Type} (iss : List (IterSpace κ)) (fields : List (FieldDesc κ)) : Nat :=
  (iss.map (fun is => (fields.map (fun fd => is.size * fd.dsize)).sum)).sum

/-- Write `bs` into `buf` starting at byte offset `off` (the effect of a
contract-conforming `dd.get(is, &data[buffer_index])`). -/
def writeAt (buf : List Nat) (off : Nat) (bs : List Nat) : List Nat :=
  buf.take off ++ bs ++ buf.drop (off + bs.length)

/-- The inner packing loop of `communication_object::pack` for one field:
for each iteration space, `dd.get(is, &data[buffer_index])` then
`buffer_index += is.size() * dd.data_type_size()`.  Returns the buffer and
the advanced `buffer_index`. -/
def packInner {κ : Type} (fd : FieldDesc κ) :
    List Nat → Nat → List (IterSpace κ) → List Nat × Nat
  | buf, idx, [] => (buf, idx)
  | buf, idx, is :: rest =>
    packInner fd (writeAt buf idx (fd.get is)) (idx + is.size * fd.dsize) rest

/-- The outer packing loop of `communication_object::pack`: outer over the
field descriptors, inner over the iteration spaces, with one running
`buffer_index` threaded through. -/
def packOuter {κ : Type} :
    List Nat → Nat → List (FieldDesc κ) → List (IterSpace κ) → List Nat × Nat
  | buf, idx, [], _ => (buf, idx)
  | buf, idx, fd :: fds, iss =>
    let r := packInner fd buf idx iss
    packOuter r.1 r.2 fds iss

/-- `communication_object::pack` for one halo: size the send buffer to
`buffer_size(...)` (content of the fresh buffer unspecified, modelled as
zeros — `reserve` does not preserve contents) and run the two loops from
`buffer_index = 0`. -/
def pack {κ : Type} (fields : List (FieldDesc κ)) (iss : List (IterSpace κ)) : List Nat :=
  (packOuter (List.replicate (bufferSize iss fields) 0) 0 fields iss).1

/-- The inner unpacking loop of `handle::unpack` for one field: for each
iteration space, `dd.set(is, &data[buffer_index])` then
`buffer_index += is.size() * dd.data_type_size()`. -/
def unpackInner {κ : Type} [DecidableEq κ] :
    FieldDesc κ → Nat → List Nat → List (IterSpace κ) → FieldDesc κ × Nat
  | fd, idx, _, [] => (fd, idx)
  | fd, idx, buf, is :: rest =>
    unpackInner (fd.set is (buf.drop idx)) (idx + is.size * fd.dsize) buf rest

/-- The outer unpacking loop of `handle::unpack`: same mirrored order, outer
over the field descriptors, inner over the iteration spaces, one running
`buffer_index`. -/
def unpackOuter {κ : Type} [DecidableEq κ] :
    List (FieldDesc κ) → Nat → List Nat → List (IterSpace κ) → List (FieldDesc κ)
  | [], _, _, _ => []
  | fd :: fds, idx, buf, iss =>
    let r := unpackInner fd idx buf iss
    r.1 :: unpackOuter fds r.2 buf iss

/-- `handle::unpack` for one halo: run the mirrored loops from
`buffer_index = 0` on the received buffer. -/
def unpack {κ : Type} [DecidableEq κ] (fields : List (FieldDesc κ))
    (iss : List (IterSpace κ)) (buf : List Nat) : List (FieldDesc κ) :=
  unpackOuter fields 0 buf iss

/-- The byte run `pack` produces for one field (all its iteration spaces,
concatenated). -/
def packOne {κ : Type} (fd : FieldDesc κ) : List (IterSpace κ) → List Nat
  | [] => []
  | is :: iss => fd.get is ++ packOne fd iss

/-- The whole packed buffer as a flat concatenation: fields outer, iteration
spaces inner. -/
def packFlat {κ : Type} : List (FieldDesc κ) → List (IterSpace κ) → List Nat
  | [], _ => []
  | fd :: fds, iss => packOne fd iss ++ packFlat fds iss

/-- Compatibility of a receiver field descriptor with a sender one: equal
data type sizes, the sender's encoding is `dsize` bytes wide, and the
receiver's decoding inverts it (the two sides instantiate the exchange with
the same field types). -/
def FieldCompat {κ : Type} (sfd rfd : FieldDesc κ) : Prop :=
  rfd.dsize = sfd.dsize ∧
  (∀ v, (sfd.encode v).length = sfd.dsize) ∧
  (∀ v, rfd.decode (sfd.encode v) = v)

/-! ### Temporal structure of `exchange` and `handle::wait`

`communication_object::exchange` is embedded as an event-trace generator:
posting a receive, packing a halo, posting a send, waiting on a send future,
waiting on a receive future, unpacking a halo.  Halos are identified by their
ordered domain id. -/

/-- Observable events of one exchange, tagged by the halo's ordered id. -/
inductive ExchangeEvent (α : Type) where
  | postRecv (k : α)
  | packHalo (k : α)
  | postSend (k : α)
  | waitSend (k : α)
  | waitRecv (k : α)
  | unpackHalo (k : α)
deriving DecidableEq, Repr

/-- State threaded through the loops of `exchange`: the event trace so far,
the collected receive requests (`ordered_receive_requests`) and the collected
send requests (`send_requests`). -/
structure ExchangeState (α : Type) where
  trace : List (ExchangeEvent α)
  recvRequests : List α
  sendRequests : List α

/-- The RECEIVE loop: for each ordered receive halo (in the ordered map's
iteration order) size the buffer, post the receive and push the request. -/
def recvLoop {α : Type} : ExchangeState α → List α → ExchangeState α
  | st, [] => st
  | st, k :: ks =>
    recvLoop ⟨st.trace ++ [ExchangeEvent.postRecv k], st.recvRequests ++ [k], st.sendRequests⟩ ks

/-- The SEND loop: for each ordered send halo, pack it and post the send,
collecting the send future. -/
def sendLoop {α : Type} : ExchangeState α → List α → ExchangeState α
  | st, [] => st
  | st, k :: ks =>
    sendLoop ⟨st.trace ++ [ExchangeEvent.packHalo k, ExchangeEvent.postSend k],
              st.recvRequests, st.sendRequests ++ [k]⟩ ks

/-- The SEND WAIT loop: wait on every collected send future, in order. -/
def sendWaitLoop {α : Type} : List (ExchangeEvent α) → List α → List (ExchangeEvent α)
  | tr, [] => tr
  | tr, k :: ks => sendWaitLoop (tr ++ [ExchangeEvent.waitSend k]) ks

/-- `communication_object::exchange`: receives first, then pack-and-send,
then wait on all sends; the handle returned holds the receive requests in
posting order.  The result is the trace of everything that happened before
the handle was returned, together with the handle's request list. -/
def exchangeRun {α : Type} (recvHalos sendHalos : List α) :
    List (ExchangeEvent α) × List α :=
  let st1 := recvLoop ⟨[], [], []⟩ recvHalos
  let st2 := sendLoop st1 sendHalos
  let tr3 := sendWaitLoop st2.trace st2.sendRequests
  (tr3, st2.recvRequests)

/-- `handle::wait()`: for each stored receive request in order, wait on its
future and then unpack it before moving to the next one. -/
def handleWaitRun {α : Type} : List (ExchangeEvent α) → List α → List (ExchangeEvent α)
  | tr, [] => tr
  | tr, k :: ks =>
    handleWaitRun (tr ++ [ExchangeEvent.waitRecv k, ExchangeEvent.unpackHalo k]) ks

/-- The events the SEND loop emits for a list of send halos: pack, then post,
per halo. -/
def sendEvents {α : Type} : List α → List (ExchangeEvent α)
  | [] => []
  | k :: ks => ExchangeEvent.packHalo k :: ExchangeEvent.postSend k :: sendEvents ks

/-- The events `handle::wait()` emits: wait on a receive future, then unpack
that halo, per stored request. -/
def waitRecvEvents {α : Type} : List α → List (ExchangeEvent α)
  | [] => []
  | k :: ks => ExchangeEvent.waitRecv k :: ExchangeEvent.unpackHalo k :: waitRecvEvents ks

/-- Whether an event posts a receive. -/
def ExchangeEvent.isPostRecv {α : Type} : ExchangeEvent α → Bool
  | ExchangeEvent.postRecv _ => true
  | _ => false

/-- Whether an event posts a send. -/
def ExchangeEvent.isPostSend {α : Type} : ExchangeEvent α → Bool
  | ExchangeEvent.postSend _ => true
  | _ => false

/-- The ordered id of a posted receive, if the event is one. -/
def ExchangeEvent.postRecvId {α : Type} : ExchangeEvent α → Option α
  | ExchangeEvent.postRecv k => some k
  | _ => none

/-- The ordered id of a waited send, if the event is one. -/
def ExchangeEvent.waitSendId {α : Type} : ExchangeEvent α → Option α
  | ExchangeEvent.waitSend k => some k
  | _ => none

/-! ### Remaining shared helpers and concrete inputs used by witnesses -/

/-- Concatenation of a list of lists. -/
def concatAll {α : Type} : List (List α) → List α
  | [] => []
  | l :: ls => l ++ concatAll ls

/-- All cells covered by a halo's iteration spaces, in traversal order. -/
def spaceCells {κ : Type} : List (IterSpace κ) → List κ
  | [] => []
  | is :: iss => is.coords ++ spaceCells iss

/-- Sender field with 1-byte data type over `Nat` cells, contents `3c`. -/
def sfEx0 : FieldDesc Nat := ⟨1, fun v => [v], fun bs => bs.headD 0, fun c => c * 3⟩

/-- Sender field with 2-byte data type over `Nat` cells, contents `c + 100`. -/
def sfEx1 : FieldDesc Nat := ⟨2, fun v => [v, 0], fun bs => bs.headD 0, fun c => c + 100⟩

/-- Receiver field matching `sfEx0`, initially all zero. -/
def rfEx0 : FieldDesc Nat := ⟨1, fun v => [v], fun bs => bs.headD 0, fun _ => 0⟩

/-- Receiver field matching `sfEx1`, initially all zero. -/
def rfEx1 : FieldDesc Nat := ⟨2, fun v => [v, 0], fun bs => bs.headD 0, fun _ => 0⟩

/-- A halo made of two iteration spaces over `Nat` cells. -/
def issEx : List (IterSpace Nat) := [⟨[0, 1]⟩, ⟨[5]⟩]

/-- Two receive halo keys in ascending comparator order. -/
def recvsEx : List OrderedDomainId := [⟨⟨0, 0⟩, 1⟩, ⟨⟨1, 0⟩, 2⟩]

/-- One send halo key. -/
def sendsEx : List OrderedDomainId := [⟨⟨0, 0⟩, 3⟩]

/-- An allocator state with one used block at address 1 (capacity 4). -/
def allocStateEx : AllocState := ⟨[], [⟨1, 4⟩], 2⟩

/-- A registry with two entries, distinct request keys. -/
def registryEx : Registry := [⟨0, 5, 1⟩, ⟨1, 6, 2⟩]

/-- A completion oracle: only request 1 has completed. -/
def completedEx : Nat → Bool := fun q => decide (q = 1)

/-- A callback effect that re-registers its own entry (same request key). -/
def cbEffectEx : CbEntry → Registry → Registry := fun e reg => emplaceEntry reg e

/-- Allocator invariant: the pointers stored in the two collections are, up to
permutation, exactly the distinct pointers handed out so far, and all of them
lie below the base allocator's next fresh address. -/
def AllocInv (s : AllocState) (handed : List Nat) : Prop :=
  ((s.used_alloc ++ s.free_alloc).map PersistentPointer.ptr).Perm handed ∧
  handed.Nodup ∧ ∀ q ∈ handed, q < s.next_ptr

/-- The `tag_map` of the disambiguation loop represents the multiset of peer
ranks already visited: a rank's entry stores (number of visits) − 1, and an
unvisited rank has no entry. -/
def MapRepr (m : List (Int × Nat)) (seen : List Int) : Prop :=
  ∀ rank : Int, tagMapFind m rank =
    if seen.count rank = 0 then none else some (seen.count rank - 1)

/-! ## Theorems -/

/-- **C2.** The claim fails on `mpi::my_dull_future::ready()`: it returns
`!flag` after `MPI_Test`, so a completed operation is reported as pending
(`false`) and a pending one as ready (`true`); its own doc comment ("True if
the operation is completed") and the sibling implementation
`gridtools::ghex::mpi::_impl::mpi_future::ready()` (which returns `flag`)
both say the opposite. -/
theorem C2_ready_inversion :
    myDullFutureReady ReqState.completed = false ∧
    myDullFutureReady ReqState.pending = true ∧
    mpiFutureReady ReqState.completed = true ∧
    mpiFutureReady ReqState.pending = false := by decide

/-- **C6.** The comparator
`m_size < other.m_size ? true : (m_domain_id < other.m_domain_id)` is not the
lexicographic strict order on `(byte_size, extended_domain_id)`: with
`a = {id {1, tag 0}, size 1}` and `b = {id {0, tag 0}, size 2}` the code
yields both `a < b` and `b < a` (asymmetry fails, so it is not a strict weak
ordering at all), while the spec's byte-size-first order yields `a < b` only. -/
theorem C6_comparator_not_lexicographic :
    orderedIdLt ⟨⟨1, 0⟩, 1⟩ ⟨⟨0, 0⟩, 2⟩ = true ∧
    orderedIdLt ⟨⟨0, 0⟩, 2⟩ ⟨⟨1, 0⟩, 1⟩ = true ∧
    specOrderedIdLt ⟨⟨1, 0⟩, 1⟩ ⟨⟨0, 0⟩, 2⟩ = true ∧
    specOrderedIdLt ⟨⟨0, 0⟩, 2⟩ ⟨⟨1, 0⟩, 1⟩ = false := by decide

/-- **C8.** The claim fails on `mpi::message::enqueue`: starting from an empty
message (capacity 0, size 0), enqueueing one 8-byte value grows the capacity
only to `size_t((0+1)*1.2) = 1` but sets the size to 8, so afterwards
`size() ≤ capacity()` is violated (and the store itself runs past the
1-byte allocation). -/
theorem C8_enqueue_breaks_invariant :
    (MpiMessage.enqueue ⟨0, 0, 0⟩ 8).m_size = 8 ∧
    (MpiMessage.enqueue ⟨0, 0, 0⟩ 8).m_capacity = 1 ∧
    ¬ (MpiMessage.enqueue ⟨0, 0, 0⟩ 8).m_size ≤ (MpiMessage.enqueue ⟨0, 0, 0⟩ 8).m_capacity :=
  by decide

/-- **C9.** The claim fails on `mpi::message::empty()`: its body is
`m_size == 0;`, a comparison whose result is discarded, so a message of size 5
still has size 5 afterwards — even though its doc comment says "Reset the size
of the message to 0".  `message_buffer::clear()` (`resize(0)`, whose
`reserve(0)` is a no-op) does behave as claimed: size becomes 0, capacity and
storage identity are untouched. -/
theorem C9_empty_does_not_clear :
    (MpiMessage.emptyOp ⟨7, 5, 0⟩).m_size = 5 ∧
    (MessageBuffer.clear ⟨7, 5, 3⟩).size = 0 ∧
    (MessageBuffer.clear ⟨7, 5, 3⟩).capacity = 7 ∧
    (MessageBuffer.clear ⟨7, 5, 3⟩).allocId = 3 := by decide

/-- **C5 (counterexample).** With two local domains whose patterns each hold
one recv entry from peer rank 0, the shared `tag_map` (declared outside the
loop over patterns) gives the second pattern's entry tag 1, so it is false
that within every pattern the entries from a given peer rank carry tags
starting at 0. -/
theorem C5_counterexample :
    ¬ ∀ pat ∈ assignTags [[0], [0]], (∃ e ∈ pat, e.1 = 0) → (0, 0) ∈ pat := by decide

/-- **C10.** `persistent_allocator::deallocate(p, n)` with a pointer that is
not in the used collection finds nothing via `std::find_if` and returns
without touching either collection. -/
theorem C10_deallocate_foreign_noop (s : AllocState) (p : Nat)
    (h : ∀ x ∈ s.used_alloc, x.ptr ≠ p) : deallocate s p = s := by
  unfold deallocate
  have hn : s.used_alloc.find? (fun x => decide (x.ptr = p)) = none := by
    apply List.find?_eq_none.mpr
    intro x hx
    simpa using h x hx
  rw [hn]

/-- Witness for C10 at a concrete allocator state and pointer. -/
theorem C10_witness :
    (∀ x ∈ allocStateEx.used_alloc, x.ptr ≠ 0) ∧ deallocate allocStateEx 0 = allocStateEx :=
  ⟨by decide, C10_deallocate_foreign_noop allocStateEx 0 (by decide)⟩

theorem tagMapFind_cons (x : Int × Nat) (l : List (Int × Nat)) (r : Int) :
    tagMapFind (x :: l) r = if x.1 = r then some x.2 else tagMapFind l r := by
  by_cases h : x.1 = r <;> simp [tagMapFind, h]

theorem tagMapFind_set (m : List (Int × Nat)) (r : Int) (v : Nat) (r2 : Int) :
    tagMapFind (tagMapSet m r v) r2 = if r2 = r then some v else tagMapFind m r2 := by
  induction m with
  | nil =>
    simp only [tagMapSet, tagMapFind_cons]
    by_cases h : r2 = r
    · rw [if_pos h.symm, if_pos h]
    · rw [if_neg (fun hh => h hh.symm), if_neg h]
  | cons x l ih =>
    simp only [tagMapSet]
    by_cases hx : x.1 = r
    · rw [if_pos hx, tagMapFind_cons, tagMapFind_cons]
      by_cases h : r2 = r
      · rw [if_pos h.symm, if_pos h]
      · rw [if_neg (fun hh => h hh.symm), if_neg h,
          if_neg (fun hh : x.1 = r2 => h (hh.symm.trans hx))]
    · rw [if_neg hx, tagMapFind_cons, tagMapFind_cons]
      by_cases hxr2 : x.1 = r2
      · rw [if_pos hxr2, if_neg (fun hh : r2 = r => hx (hxr2.trans hh)), if_pos hxr2]
      · rw [if_neg hxr2, ih, if_neg hxr2]

theorem mapRepr_nil : MapRepr [] [] := by
  intro rank
  simp [tagMapFind]

theorem assignTagStep_spec (m : List (Int × Nat)) (seen : List Int) (rank : Int)
    (h : MapRepr m seen) :
    assignTagStep m rank = (seen.count rank, tagMapSet m rank (seen.count rank)) := by
  unfold assignTagStep
  rw [h rank]
  cases hc : seen.count rank with
  | zero => simp
  | succ k => simp

theorem mapRepr_step (m : List (Int × Nat)) (seen : List Int) (rank : Int)
    (h : MapRepr m seen) :
    MapRepr (tagMapSet m rank (seen.count rank)) (seen ++ [rank]) := by
  intro r2
  rw [tagMapFind_set]
  by_cases hr : r2 = rank
  · subst hr
    simp [List.count_append]
  · rw [if_neg hr, h r2]
    have hz : List.count r2 [rank] = 0 := by
      simp [List.count_cons]
      exact fun hh => hr hh.symm
    simp [List.count_append, hz]

theorem assignTagsPattern_spec :
    ∀ (pat : List Int) (m : List (Int × Nat)) (seen : List Int), MapRepr m seen →
      (assignTagsPattern m pat).1 = occEnum seen pat ∧
      MapRepr (assignTagsPattern m pat).2 (seen ++ pat)
  | [], m, seen, h => by simpa [assignTagsPattern, occEnum] using h
  | rank :: rest, m, seen, h => by
    have hs := assignTagStep_spec m seen rank h
    have hrec := assignTagsPattern_spec rest (tagMapSet m rank (seen.count rank))
      (seen ++ [rank]) (mapRepr_step m seen rank h)
    simp only [assignTagsPattern, hs]
    refine ⟨?_, ?_⟩
    · simp [occEnum, hrec.1]
    · have := hrec.2
      rwa [List.append_assoc] at this
      -- (seen ++ [rank]) ++ rest = seen ++ ([rank] ++ rest) = seen ++ rank :: rest

theorem occEnum_cons (seen : List Int) (r : Int) (xs : List Int) :
    occEnum seen (r :: xs) = (r, seen.count r) :: occEnum (seen ++ [r]) xs := rfl

theorem occEnum_append (seen l1 l2 : List Int) :
    occEnum seen (l1 ++ l2) = occEnum seen l1 ++ occEnum (seen ++ l1) l2 := by
  induction l1 generalizing seen with
  | nil => simp [occEnum]
  | cons r rest ih =>
    rw [List.cons_append, occEnum_cons, occEnum_cons, ih]
    simp [List.append_assoc]

theorem assignTagsAll_spec :
    ∀ (pats : List (List Int)) (m : List (Int × Nat)) (seen : List Int), MapRepr m seen →
      concatAll (assignTagsAll m pats).1 = occEnum seen (concatAll pats) ∧
      MapRepr (assignTagsAll m pats).2 (seen ++ concatAll pats)
  | [], m, seen, h => by simpa [assignTagsAll, concatAll, occEnum] using h
  | pat :: pats, m, seen, h => by
    have hp := assignTagsPattern_spec pat m seen h
    have hrec := assignTagsAll_spec pats (assignTagsPattern m pat).2 (seen ++ pat) hp.2
    simp only [assignTagsAll, concatAll]
    refine ⟨?_, ?_⟩
    · rw [hp.1, hrec.1, occEnum_append]
    · have := hrec.2
      rwa [List.append_assoc] at this

theorem occEnum_count_le :
    ∀ (xs seen : List Int) (e : Int × Nat), e ∈ occEnum seen xs → seen.count e.1 ≤ e.2
  | [], seen, e, h => by simp [occEnum] at h
  | r :: rest, seen, e, h => by
    simp only [occEnum, List.mem_cons] at h
    rcases h with h | h
    · subst h; exact Nat.le_refl _
    · have := occEnum_count_le rest (seen ++ [r]) e h
      calc seen.count e.1 ≤ (seen ++ [r]).count e.1 := by
            simp [List.count_append]
        _ ≤ e.2 := this

theorem occEnum_pairwise :
    ∀ (xs seen : List Int),
      (occEnum seen xs).Pairwise (fun a b => a.1 = b.1 → a.2 < b.2)
  | [], seen => by simp [occEnum]
  | r :: rest, seen => by
    simp only [occEnum]
    refine List.Pairwise.cons ?_ (occEnum_pairwise rest (seen ++ [r]))
    intro b hb heq
    have hle := occEnum_count_le rest (seen ++ [r]) b hb
    have : (seen ++ [r]).count b.1 = seen.count r + 1 := by
      rw [← heq]
      simp [List.count_append, heq]
    omega

/-- **C5 (amended).** The tag counter is shared across all patterns of the
process: flattening the patterns in iteration order, the k-th recv entry with
a given peer rank is assigned tag k (its number of earlier occurrences), so
tags restart at 0 per peer rank only process-wide, not per pattern.
Consequently two recv entries with the same peer rank never share a tag —
across all patterns, hence in particular tags are unique per
`(peer_rank, local_domain_id)` pair. -/
theorem C5_amended (pats : List (List Int)) :
    concatAll (assignTags pats) = occEnum [] (concatAll pats) ∧
    (concatAll (assignTags pats)).Pairwise (fun a b => a.1 = b.1 → a.2 ≠ b.2) := by
  have h := assignTagsAll_spec pats [] [] mapRepr_nil
  have h1 : concatAll (assignTags pats) = occEnum [] (concatAll pats) := by
    simpa [assignTags] using h.1
  refine ⟨h1, ?_⟩
  rw [h1]
  exact (occEnum_pairwise (concatAll pats) []).imp fun hab heq => Nat.ne_of_lt (hab heq)

open List

theorem insertBySize_perm (x : PersistentPointer) :
    ∀ l : List PersistentPointer, (insertBySize x l).Perm (x :: l)
  | [] => List.Perm.refl _
  | y :: l => by
    unfold insertBySize
    by_cases h : x.n < y.n
    · rw [if_pos h]
    · rw [if_neg h]
      exact ((insertBySize_perm x l).cons y).trans (List.Perm.swap x y l)

theorem insertByPtr_perm (x : PersistentPointer) :
    ∀ l : List PersistentPointer, (∀ y ∈ l, x.ptr ≠ y.ptr) →
      (insertByPtr x l).Perm (x :: l)
  | [], _ => List.Perm.refl _
  | y :: l, h => by
    unfold insertByPtr
    by_cases h1 : x.ptr < y.ptr
    · rw [if_pos h1]
    · rw [if_neg h1, if_neg (h y (List.mem_cons_self y l))]
      exact ((insertByPtr_perm x l fun z hz => h z (List.mem_cons_of_mem y hz)).cons y).trans
        (List.Perm.swap x y l)

theorem find?_eraseFirst_perm (p : PersistentPointer → Bool) :
    ∀ (l : List PersistentPointer) (x : PersistentPointer), l.find? p = some x →
      l.Perm (x :: eraseFirst p l)
  | [], x, h => by simp at h
  | y :: l, x, h => by
    unfold eraseFirst
    by_cases hy : p y
    · rw [List.find?_cons_of_pos _ hy] at h
      cases h
      rw [if_pos hy]
    · rw [List.find?_cons_of_neg _ hy] at h
      rw [if_neg hy]
      exact ((find?_eraseFirst_perm p l x h).cons y).trans (List.Perm.swap x y _)

theorem allocInv_init : AllocInv initAllocState [] :=
  ⟨List.Perm.refl _, List.nodup_nil, fun q hq => absurd hq (List.not_mem_nil q)⟩

theorem allocate_inv (s : AllocState) (n : Nat) (h : List Nat) (hinv : AllocInv s h) :
    AllocInv (allocate s n).2
      (if (allocate s n).1 ∈ h then h else h ++ [(allocate s n).1]) := by
  obtain ⟨hperm, hnodup, hbound⟩ := hinv
  have hmapped : ((s.used_alloc ++ s.free_alloc).map PersistentPointer.ptr).Nodup :=
    hperm.nodup_iff.mpr hnodup
  rw [List.map_append] at hmapped hperm
  unfold allocate
  cases hfind : s.free_alloc.find? (fun x => decide (n ≤ x.n)) with
  | some x =>
    have hxmem : x ∈ s.free_alloc := List.mem_of_find?_eq_some hfind
    have hxptr_free : x.ptr ∈ s.free_alloc.map PersistentPointer.ptr :=
      List.mem_map_of_mem _ hxmem
    have hx_not_used : ∀ y ∈ s.used_alloc, x.ptr ≠ y.ptr := by
      intro y hy hxy
      have hyptr : x.ptr ∈ s.used_alloc.map PersistentPointer.ptr := by
        rw [hxy]; exact List.mem_map_of_mem _ hy
      exact ((List.nodup_append.mp hmapped).2.2) hyptr hxptr_free
    have hret_mem : x.ptr ∈ h := hperm.mem_iff.mp (by
      rw [List.mem_append]; exact Or.inr hxptr_free)
    simp only [hfind, hret_mem, if_pos]
    refine ⟨?_, hnodup, hbound⟩
    have hfree : s.free_alloc.Perm (x :: eraseFirst (fun y => decide (n ≤ y.n)) s.free_alloc) :=
      find?_eraseFirst_perm _ s.free_alloc x hfind
    have hused : (insertByPtr x s.used_alloc).Perm (x :: s.used_alloc) :=
      insertByPtr_perm x s.used_alloc hx_not_used
    calc ((insertByPtr x s.used_alloc
            ++ eraseFirst (fun y => decide (n ≤ y.n)) s.free_alloc).map PersistentPointer.ptr)
        = (insertByPtr x s.used_alloc).map PersistentPointer.ptr
            ++ (eraseFirst (fun y => decide (n ≤ y.n)) s.free_alloc).map PersistentPointer.ptr :=
          List.map_append _ _ _
      _ ~ (x :: s.used_alloc).map PersistentPointer.ptr
            ++ (eraseFirst (fun y => decide (n ≤ y.n)) s.free_alloc).map PersistentPointer.ptr :=
          (hused.map PersistentPointer.ptr).append_right _
      _ = x.ptr :: (s.used_alloc.map PersistentPointer.ptr
            ++ (eraseFirst (fun y => decide (n ≤ y.n)) s.free_alloc).map PersistentPointer.ptr) := rfl
      _ ~ s.used_alloc.map PersistentPointer.ptr
            ++ x.ptr :: (eraseFirst (fun y => decide (n ≤ y.n)) s.free_alloc).map PersistentPointer.ptr :=
          List.perm_middle.symm
      _ = s.used_alloc.map PersistentPointer.ptr
            ++ (x :: eraseFirst (fun y => decide (n ≤ y.n)) s.free_alloc).map PersistentPointer.ptr := rfl
      _ ~ s.used_alloc.map PersistentPointer.ptr ++ s.free_alloc.map PersistentPointer.ptr :=
          ((hfree.map PersistentPointer.ptr).symm).append_left _
      _ ~ h := hperm
  | none =>
    have hq_not_mem : s.next_ptr ∉ h := fun hm => absurd (hbound _ hm) (Nat.lt_irrefl _)
    have hnew_not_used : ∀ y ∈ s.used_alloc, s.next_ptr ≠ y.ptr := by
      intro y hy hxy
      apply hq_not_mem
      have hmem : y.ptr ∈ h := hperm.mem_iff.mp (by
        rw [List.mem_append]
        exact Or.inl (List.mem_map_of_mem _ hy))
      rw [hxy]
      exact hmem
    simp only [hfind, hq_not_mem, if_neg, if_false]
    refine ⟨?_, ?_, ?_⟩
    · calc ((insertByPtr ⟨s.next_ptr, n⟩ s.used_alloc ++ s.free_alloc).map PersistentPointer.ptr)
          = (insertByPtr ⟨s.next_ptr, n⟩ s.used_alloc).map PersistentPointer.ptr
              ++ s.free_alloc.map PersistentPointer.ptr := List.map_append _ _ _
        _ ~ ((⟨s.next_ptr, n⟩ : PersistentPointer) :: s.used_alloc).map PersistentPointer.ptr
              ++ s.free_alloc.map PersistentPointer.ptr :=
            ((insertByPtr_perm _ s.used_alloc hnew_not_used).map PersistentPointer.ptr).append_right _
        _ = s.next_ptr :: (s.used_alloc.map PersistentPointer.ptr
              ++ s.free_alloc.map PersistentPointer.ptr) := rfl
        _ ~ s.next_ptr :: h := hperm.cons _
        _ ~ h ++ [s.next_ptr] := (List.perm_append_singleton _ _).symm
    · have : (s.next_ptr :: h).Nodup := List.nodup_cons.mpr ⟨hq_not_mem, hnodup⟩
      exact (List.perm_append_singleton _ _).nodup_iff.mpr this
    · intro q hq
      rw [List.mem_append] at hq
      rcases hq with hq | hq
      · exact Nat.lt_trans (hbound q hq) (Nat.lt_succ_self _)
      · rw [List.mem_singleton] at hq
        subst hq
        exact Nat.lt_succ_self _

theorem deallocate_inv (s : AllocState) (p : Nat) (h : List Nat) (hinv : AllocInv s h) :
    AllocInv (deallocate s p) h := by
  obtain ⟨hperm, hnodup, hbound⟩ := hinv
  unfold deallocate
  cases hfind : s.used_alloc.find? (fun x => decide (x.ptr = p)) with
  | none => exact ⟨hperm, hnodup, hbound⟩
  | some x =>
    refine ⟨?_, hnodup, hbound⟩
    have hused : s.used_alloc.Perm (x :: eraseFirst (fun y => decide (y.ptr = p)) s.used_alloc) :=
      find?_eraseFirst_perm _ s.used_alloc x hfind
    have hfree : (insertBySize x s.free_alloc).Perm (x :: s.free_alloc) :=
      insertBySize_perm x s.free_alloc
    calc ((eraseFirst (fun y => decide (y.ptr = p)) s.used_alloc
            ++ insertBySize x s.free_alloc).map PersistentPointer.ptr)
        = (eraseFirst (fun y => decide (y.ptr = p)) s.used_alloc).map PersistentPointer.ptr
            ++ (insertBySize x s.free_alloc).map PersistentPointer.ptr := List.map_append _ _ _
      _ ~ (eraseFirst (fun y => decide (y.ptr = p)) s.used_alloc).map PersistentPointer.ptr
            ++ (x :: s.free_alloc).map PersistentPointer.ptr :=
          (hfree.map PersistentPointer.ptr).append_left _
      _ ~ x.ptr :: ((eraseFirst (fun y => decide (y.ptr = p)) s.used_alloc).map PersistentPointer.ptr
            ++ s.free_alloc.map PersistentPointer.ptr) := List.perm_middle
      _ = ((x :: eraseFirst (fun y => decide (y.ptr = p)) s.used_alloc).map PersistentPointer.ptr
            ++ s.free_alloc.map PersistentPointer.ptr) := rfl
      _ ~ (s.used_alloc.map PersistentPointer.ptr ++ s.free_alloc.map PersistentPointer.ptr) :=
          ((hused.map PersistentPointer.ptr).symm).append_right _
      _ = (s.used_alloc ++ s.free_alloc).map PersistentPointer.ptr := (List.map_append _ _ _).symm
      _ ~ h := hperm

theorem runAlloc_inv :
    ∀ (ops : List AllocOp) (s : AllocState) (h : List Nat), AllocInv s h →
      AllocInv (runAlloc s h ops).1 (runAlloc s h ops).2
  | [], s, h, hinv => hinv
  | AllocOp.alloc n :: ops, s, h, hinv =>
    runAlloc_inv ops (allocate s n).2 _ (allocate_inv s n h hinv)
  | AllocOp.dealloc p :: ops, s, h, hinv =>
    runAlloc_inv ops (deallocate s p) h (deallocate_inv s p h hinv)

theorem runAlloc_append :
    ∀ (ops1 ops2 : List AllocOp) (s : AllocState) (h : List Nat),
      runAlloc s h (ops1 ++ ops2) = runAlloc (runAlloc s h ops1).1 (runAlloc s h ops1).2 ops2
  | [], ops2, s, h => rfl
  | AllocOp.alloc n :: ops1, ops2, s, h => by
    simp only [List.cons_append, runAlloc]
    exact runAlloc_append ops1 ops2 _ _
  | AllocOp.dealloc p :: ops1, ops2, s, h => by
    simp only [List.cons_append, runAlloc]
    exact runAlloc_append ops1 ops2 _ _

theorem runAlloc_handed_growth :
    ∀ (ops : List AllocOp) (s : AllocState) (h : List Nat),
      h.length ≤ (runAlloc s h ops).2.length
  | [], s, h => Nat.le_refl _
  | AllocOp.alloc n :: ops, s, h => by
    simp only [runAlloc]
    by_cases hm : (allocate s n).1 ∈ h
    · rw [if_pos hm]
      exact runAlloc_handed_growth ops _ h
    · rw [if_neg hm]
      calc h.length ≤ (h ++ [(allocate s n).1]).length := by
            rw [List.length_append]; omega
        _ ≤ _ := runAlloc_handed_growth ops _ _
  | AllocOp.dealloc p :: ops, s, h => runAlloc_handed_growth ops _ _

theorem progressLoop_spec (completed : Nat → Bool) (cbEffect : CbEntry → Registry → Registry) :
    ∀ (rr pre : Registry),
      (progressLoop completed cbEffect pre rr = (pre ++ rr, []) ∧
        ∀ e ∈ rr, completed e.req = false) ∨
      (∃ a e b, rr = a ++ e :: b ∧ completed e.req = true ∧
        (∀ x ∈ a, completed x.req = false) ∧
        progressLoop completed cbEffect pre rr = (cbEffect e (pre ++ (a ++ b)), [e]))
  | [], pre => Or.inl (by simp [progressLoop])
  | e :: rest, pre => by
    by_cases hc : completed e.req
    · refine Or.inr ⟨[], e, rest, by simp, hc, by simp, ?_⟩
      simp [progressLoop, hc]
    · rcases progressLoop_spec completed cbEffect rest (pre ++ [e]) with ⟨heq, hall⟩ |
        ⟨a, x, b, hsplit, hcx, hfalse, heq⟩
      · refine Or.inl ⟨?_, ?_⟩
        · rw [progressLoop, if_neg (by simp [hc]), heq, List.append_assoc, List.singleton_append]
        · intro z hz
          rcases List.mem_cons.mp hz with hz | hz
          · rw [hz]; exact eq_false_of_ne_true hc
          · exact hall z hz
      · refine Or.inr ⟨e :: a, x, b, by rw [hsplit]; rfl, hcx, ?_, ?_⟩
        · intro z hz
          rcases List.mem_cons.mp hz with hz | hz
          · rw [hz]; exact eq_false_of_ne_true hc
          · exact hfalse z hz
        · rw [progressLoop, if_neg (by simp [hc]), heq, List.append_assoc,
            List.singleton_append, List.cons_append]

/-- **C4.** One call of `progress()` invokes at most one registered callback;
the completed entry is erased from the registry before its callback runs (the
registry the callback observes is the original minus that entry, whose request
key is no longer present, so an `emplace` of the same key inside the callback
succeeds instead of colliding); and the returned boolean is true exactly when
registered requests remain after the call (counting anything the callback
registered). -/
theorem C4_progress_invariants (completed : Nat → Bool)
    (cbEffect : CbEntry → Registry → Registry) (r : Registry)
    (hkeys : r.Pairwise (fun a b => a.req ≠ b.req)) :
    (progress completed cbEffect r).invoked.length ≤ 1 ∧
    ((progress completed cbEffect r).ret = true ↔
      (progress completed cbEffect r).registry ≠ []) ∧
    ∀ e ∈ (progress completed cbEffect r).invoked,
      ∃ pre post, r = pre ++ e :: post ∧
        (progress completed cbEffect r).registry = cbEffect e (pre ++ post) ∧
        (∀ x ∈ pre ++ post, x.req ≠ e.req) ∧
        ∀ e2 : CbEntry, e2.req = e.req →
          emplaceEntry (pre ++ post) e2 = (pre ++ post) ++ [e2] := by
  have hret : ∀ l : Registry, (decide (l.length ≠ 0) = true ↔ l ≠ []) := by
    intro l
    rw [decide_eq_true_iff]
    constructor
    · intro hlen hnil
      exact hlen (by rw [hnil]; rfl)
    · intro hnil hlen
      exact hnil (List.length_eq_zero.mp hlen)
  rcases progressLoop_spec completed cbEffect r [] with ⟨heq, _⟩ |
    ⟨a, e, b, hsplit, hce, hfalse, heq⟩
  · refine ⟨?_, ?_, ?_⟩
    · simp [progress, heq]
    · simp only [progress, heq]
      exact hret _
    · intro x hx
      simp [progress, heq] at hx
  · have hreg : (progress completed cbEffect r).registry = cbEffect e (a ++ b) := by
      simp [progress, heq]
    have hinv : (progress completed cbEffect r).invoked = [e] := by
      simp [progress, heq]
    refine ⟨?_, ?_, ?_⟩
    · rw [hinv]; exact Nat.le_refl 1
    · simp only [progress, heq]
      exact hret _
    · intro x hx
      rw [hinv, List.mem_singleton] at hx
      subst hx
      refine ⟨a, b, hsplit, hreg, ?_, ?_⟩
      · rw [hsplit] at hkeys
        rw [List.pairwise_append] at hkeys
        intro z hz
        rcases List.mem_append.mp hz with hz | hz
        · exact hkeys.2.2 z hz x (List.mem_cons_self x b)
        · exact ((List.pairwise_cons.mp hkeys.2.1).1 z hz).symm
      · intro e2 he2
        have hany : (a ++ b).any (fun z => z.req = e2.req) = false := by
          rw [List.any_eq_false]
          intro z hz
          simp only [decide_eq_true_eq]
          rw [he2]
          rcases List.mem_append.mp hz with hz | hz
          · exact (by rw [hsplit] at hkeys
                      rw [List.pairwise_append] at hkeys
                      exact hkeys.2.2 z hz x (List.mem_cons_self x b))
          · exact (by rw [hsplit] at hkeys
                      rw [List.pairwise_append] at hkeys
                      exact ((List.pairwise_cons.mp hkeys.2.1).1 z hz).symm)
        rw [emplaceEntry, hany]
        rfl

/-- Witness for C4 at a concrete registry, completion oracle and callback. -/
theorem C4_witness :
    (registryEx.Pairwise (fun a b => a.req ≠ b.req)) ∧
    ((progress completedEx cbEffectEx registryEx).invoked.length ≤ 1 ∧
      ((progress completedEx cbEffectEx registryEx).ret = true ↔
        (progress completedEx cbEffectEx registryEx).registry ≠ []) ∧
      ∀ e ∈ (progress completedEx cbEffectEx registryEx).invoked,
        ∃ pre post, registryEx = pre ++ e :: post ∧
          (progress completedEx cbEffectEx registryEx).registry = cbEffectEx e (pre ++ post) ∧
          (∀ x ∈ pre ++ post, x.req ≠ e.req) ∧
          ∀ e2 : CbEntry, e2.req = e.req →
            emplaceEntry (pre ++ post) e2 = (pre ++ post) ++ [e2]) :=
  ⟨by decide, C4_progress_invariants completedEx cbEffectEx registryEx (by decide)⟩

/-- **C7.** Persistent-allocator conservation: after any sequence of
`allocate`/`deallocate` calls, `|used| + |free|` equals the number of distinct
pointers handed out so far by `allocate`; running further operations never
decreases that number; and every handed-out pointer occurs in exactly one of
the two collections. -/
theorem C7_allocator_conservation (ops more : List AllocOp) :
    (runAlloc initAllocState [] ops).1.used_alloc.length
        + (runAlloc initAllocState [] ops).1.free_alloc.length
      = (runAlloc initAllocState [] ops).2.length ∧
    (runAlloc initAllocState [] ops).2.length
      ≤ (runAlloc initAllocState [] (ops ++ more)).2.length ∧
    (runAlloc initAllocState [] (ops ++ more)).1.used_alloc.length
        + (runAlloc initAllocState [] (ops ++ more)).1.free_alloc.length
      = (runAlloc initAllocState [] (ops ++ more)).2.length ∧
    ∀ p ∈ (runAlloc initAllocState [] ops).2,
      (((runAlloc initAllocState [] ops).1.used_alloc
          ++ (runAlloc initAllocState [] ops).1.free_alloc).map PersistentPointer.ptr).count p
        = 1 := by
  have hinv := runAlloc_inv ops initAllocState [] allocInv_init
  have hinv2 := runAlloc_inv (ops ++ more) initAllocState [] allocInv_init
  have hcount : ∀ (s : AllocState) (h : List Nat), AllocInv s h →
      s.used_alloc.length + s.free_alloc.length = h.length := by
    intro s h hi
    have := hi.1.length_eq
    rw [List.length_map, List.length_append] at this
    exact this
  refine ⟨hcount _ _ hinv, ?_, hcount _ _ hinv2, ?_⟩
  · rw [runAlloc_append]
    exact runAlloc_handed_growth more _ _
  · intro p hp
    rw [hinv.1.count_eq]
    exact List.count_eq_one_of_mem hinv.2.1 hp

theorem recvLoop_spec {α : Type} :
    ∀ (ks : List α) (tr : List (ExchangeEvent α)) (rs ss : List α),
      recvLoop ⟨tr, rs, ss⟩ ks = ⟨tr ++ ks.map ExchangeEvent.postRecv, rs ++ ks, ss⟩
  | [], tr, rs, ss => by simp [recvLoop]
  | k :: ks, tr, rs, ss => by
    rw [recvLoop, recvLoop_spec ks]
    simp [List.append_assoc]

theorem sendLoop_spec {α : Type} :
    ∀ (ks : List α) (tr : List (ExchangeEvent α)) (rs ss : List α),
      sendLoop ⟨tr, rs, ss⟩ ks = ⟨tr ++ sendEvents ks, rs, ss ++ ks⟩
  | [], tr, rs, ss => by simp [sendLoop, sendEvents]
  | k :: ks, tr, rs, ss => by
    rw [sendLoop, sendLoop_spec ks]
    simp [sendEvents, List.append_assoc]

theorem sendWaitLoop_spec {α : Type} :
    ∀ (ks : List α) (tr : List (ExchangeEvent α)),
      sendWaitLoop tr ks = tr ++ ks.map ExchangeEvent.waitSend
  | [], tr => by simp [sendWaitLoop]
  | k :: ks, tr => by
    rw [sendWaitLoop, sendWaitLoop_spec ks]
    simp [List.append_assoc]

theorem handleWaitRun_spec {α : Type} :
    ∀ (ks : List α) (tr : List (ExchangeEvent α)),
      handleWaitRun tr ks = tr ++ waitRecvEvents ks
  | [], tr => by simp [handleWaitRun, waitRecvEvents]
  | k :: ks, tr => by
    rw [handleWaitRun, handleWaitRun_spec ks]
    simp [waitRecvEvents, List.append_assoc]

theorem exchangeRun_eq {α : Type} (recvs sends : List α) :
    exchangeRun recvs sends =
      (recvs.map ExchangeEvent.postRecv
        ++ (sendEvents sends ++ sends.map ExchangeEvent.waitSend), recvs) := by
  simp only [exchangeRun, recvLoop_spec, sendLoop_spec, sendWaitLoop_spec, List.nil_append]
  simp [List.append_assoc]

theorem filterMap_postRecvId_map {α : Type} :
    ∀ ks : List α,
      (ks.map ExchangeEvent.postRecv).filterMap ExchangeEvent.postRecvId = ks
  | [] => rfl
  | k :: ks => by simp [ExchangeEvent.postRecvId, filterMap_postRecvId_map ks]

theorem filterMap_postRecvId_sendEvents {α : Type} :
    ∀ ks : List α, (sendEvents ks).filterMap ExchangeEvent.postRecvId = []
  | [] => rfl
  | k :: ks => by
    simp [sendEvents, ExchangeEvent.postRecvId, filterMap_postRecvId_sendEvents ks]

theorem filterMap_postRecvId_waitSends {α : Type} :
    ∀ ks : List α,
      (ks.map ExchangeEvent.waitSend).filterMap ExchangeEvent.postRecvId = []
  | [] => rfl
  | k :: ks => by simp [ExchangeEvent.postRecvId, filterMap_postRecvId_waitSends ks]

theorem filterMap_waitSendId_map {α : Type} :
    ∀ ks : List α,
      (ks.map ExchangeEvent.waitSend).filterMap ExchangeEvent.waitSendId = ks
  | [] => rfl
  | k :: ks => by simp [ExchangeEvent.waitSendId, filterMap_waitSendId_map ks]

theorem filterMap_waitSendId_postRecvs {α : Type} :
    ∀ ks : List α,
      (ks.map ExchangeEvent.postRecv).filterMap ExchangeEvent.waitSendId = []
  | [] => rfl
  | k :: ks => by simp [ExchangeEvent.waitSendId, filterMap_waitSendId_postRecvs ks]

theorem filterMap_waitSendId_sendEvents {α : Type} :
    ∀ ks : List α, (sendEvents ks).filterMap ExchangeEvent.waitSendId = []
  | [] => rfl
  | k :: ks => by
    simp [sendEvents, ExchangeEvent.waitSendId, filterMap_waitSendId_sendEvents ks]

theorem sendEvents_not_postRecv {α : Type} :
    ∀ (ks : List α) (e : ExchangeEvent α), e ∈ sendEvents ks → e.isPostRecv = false
  | [], e, he => by simp [sendEvents] at he
  | k :: ks, e, he => by
    simp only [sendEvents, List.mem_cons] at he
    rcases he with he | he | he
    · rw [he]; rfl
    · rw [he]; rfl
    · exact sendEvents_not_postRecv ks e he

theorem waitSends_not_postRecv {α : Type} (ks : List α) (e : ExchangeEvent α)
    (he : e ∈ ks.map ExchangeEvent.waitSend) : e.isPostRecv = false := by
  rcases List.mem_map.mp he with ⟨k, _, hk⟩
  rw [← hk]
  rfl

theorem postRecvs_not_postSend {α : Type} (ks : List α) (e : ExchangeEvent α)
    (he : e ∈ ks.map ExchangeEvent.postRecv) : e.isPostSend = false := by
  rcases List.mem_map.mp he with ⟨k, _, hk⟩
  rw [← hk]
  rfl

theorem get_append_mem_right {β : Type} (A D : List β) (i : Nat) (hi : i < (A ++ D).length)
    (h2 : A.length ≤ i) : (A ++ D).get ⟨i, hi⟩ ∈ D := by
  rw [List.get_eq_getElem, List.getElem_append_right h2]
  exact List.getElem_mem _

theorem get_append_mem_left {β : Type} (A D : List β) (i : Nat) (hi : i < (A ++ D).length)
    (h2 : i < A.length) : (A ++ D).get ⟨i, hi⟩ ∈ A := by
  rw [List.get_eq_getElem, List.getElem_append_left h2]
  exact List.getElem_mem _

theorem append_postRecv_before_postSend {β : Type} (A D : List (ExchangeEvent β))
    (hA : ∀ e ∈ A, e.isPostSend = false) (hD : ∀ e ∈ D, e.isPostRecv = false) :
    ∀ i j (hi : i < (A ++ D).length) (hj : j < (A ++ D).length),
      ((A ++ D).get ⟨i, hi⟩).isPostRecv = true →
      ((A ++ D).get ⟨j, hj⟩).isPostSend = true → i < j := by
  intro i j hi hj hrecv hsend
  have hilt : i < A.length := by
    by_contra hge
    have hmem := get_append_mem_right A D i hi (Nat.le_of_not_lt hge)
    rw [hD _ hmem] at hrecv
    exact Bool.false_ne_true hrecv
  have hjge : A.length ≤ j := by
    by_contra hlt
    have hmem := get_append_mem_left A D j hj (Nat.lt_of_not_le hlt)
    rw [hA _ hmem] at hsend
    exact Bool.false_ne_true hsend
  exact Nat.lt_of_lt_of_le hilt hjge

/-- **C3.** Within one `exchange()` call: the receives are posted first,
iterating the ordered receive-halo map (whose iteration order is ascending
under the communication object's comparator) — the trace's posted-receive
sequence is exactly that ordered halo list, and every posted receive precedes
every posted send; every collected send future is waited on before the handle
is returned (the trace, which ends at the return, contains a wait for every
send, in order); and `handle.wait()` walks the stored receive requests in the
same ascending order, waiting on each and unpacking it before waiting on the
next. -/
theorem C3_exchange_ordering (recvs sends : List OrderedDomainId)
    (hasc : List.Chain' (fun a b => orderedIdLt a b = true) recvs) :
    ((exchangeRun recvs sends).1.filterMap ExchangeEvent.postRecvId = recvs ∧
      List.Chain' (fun a b => orderedIdLt a b = true)
        ((exchangeRun recvs sends).1.filterMap ExchangeEvent.postRecvId)) ∧
    (∀ i j (hi : i < (exchangeRun recvs sends).1.length)
        (hj : j < (exchangeRun recvs sends).1.length),
        ((exchangeRun recvs sends).1.get ⟨i, hi⟩).isPostRecv = true →
        ((exchangeRun recvs sends).1.get ⟨j, hj⟩).isPostSend = true → i < j) ∧
    (exchangeRun recvs sends).1.filterMap ExchangeEvent.waitSendId = sends ∧
    handleWaitRun [] (exchangeRun recvs sends).2 = waitRecvEvents recvs := by
  have hx := exchangeRun_eq recvs sends
  rw [hx]
  refine ⟨⟨?_, ?_⟩, ?_, ?_, ?_⟩
  · simp only [List.filterMap_append, filterMap_postRecvId_map,
      filterMap_postRecvId_sendEvents, filterMap_postRecvId_waitSends,
      List.append_nil]
  · simp only [List.filterMap_append, filterMap_postRecvId_map,
      filterMap_postRecvId_sendEvents, filterMap_postRecvId_waitSends,
      List.append_nil]
    exact hasc
  · refine append_postRecv_before_postSend _ _ ?_ ?_
    · exact fun e he => postRecvs_not_postSend recvs e he
    · intro e he
      rcases List.mem_append.mp he with hm | hm
      · exact sendEvents_not_postRecv sends e hm
      · exact waitSends_not_postRecv sends e hm
  · simp only [List.filterMap_append, filterMap_waitSendId_map,
      filterMap_waitSendId_postRecvs, filterMap_waitSendId_sendEvents,
      List.nil_append]
  · rw [handleWaitRun_spec, List.nil_append]

theorem encodeCells_length {κ : Type} (fd : FieldDesc κ)
    (hl : ∀ v, (fd.encode v).length = fd.dsize) :
    ∀ cs : List κ, (encodeCells fd cs).length = cs.length * fd.dsize
  | [] => by simp [encodeCells]
  | c :: cs => by
    rw [encodeCells, List.length_append, hl, encodeCells_length fd hl cs,
      List.length_cons, Nat.succ_mul]
    omega

theorem fieldGet_length {κ : Type} (fd : FieldDesc κ)
    (hl : ∀ v, (fd.encode v).length = fd.dsize) (is : IterSpace κ) :
    (fd.get is).length = is.size * fd.dsize :=
  encodeCells_length fd hl is.coords

theorem packOne_length {κ : Type} (fd : FieldDesc κ)
    (hl : ∀ v, (fd.encode v).length = fd.dsize) :
    ∀ iss : List (IterSpace κ),
      (packOne fd iss).length = (iss.map (fun is => is.size * fd.dsize)).sum
  | [] => by simp [packOne]
  | is :: iss => by
    rw [packOne, List.length_append, fieldGet_length fd hl, packOne_length fd hl iss,
      List.map_cons, List.sum_cons]

theorem packFlat_length {κ : Type} :
    ∀ (fds : List (FieldDesc κ)) (iss : List (IterSpace κ)),
      (∀ fd ∈ fds, ∀ v, (fd.encode v).length = fd.dsize) →
      (packFlat fds iss).length
        = (fds.map (fun fd => (iss.map (fun is => is.size * fd.dsize)).sum)).sum
  | [], iss, _ => by simp [packFlat]
  | fd :: fds, iss, h => by
    rw [packFlat, List.length_append,
      packOne_length fd (h fd (List.mem_cons_self fd fds)),
      packFlat_length fds iss (fun x hx => h x (List.mem_cons_of_mem fd hx)),
      List.map_cons, List.sum_cons]

theorem sum_map_zero {β : Type} : ∀ xs : List β, (xs.map (fun _ => (0 : Nat))).sum = 0
  | [] => rfl
  | x :: xs => by simp [sum_map_zero xs]

theorem sum_map_add {β : Type} (u v : β → Nat) :
    ∀ xs : List β, (xs.map (fun x => u x + v x)).sum = (xs.map u).sum + (xs.map v).sum
  | [] => rfl
  | x :: xs => by
    simp only [List.map_cons, List.sum_cons, sum_map_add u v xs]
    omega

theorem sum_comm_lists {A B : Type} (g : A → B → Nat) :
    ∀ (fs : List A) (xs : List B),
      (fs.map (fun f => (xs.map (g f)).sum)).sum
        = (xs.map (fun x => (fs.map (fun f => g f x)).sum)).sum
  | [], xs => by simp [sum_map_zero]
  | f :: fs, xs => by
    simp only [List.map_cons, List.sum_cons, sum_comm_lists g fs xs]
    rw [← sum_map_add]

theorem bufferSize_eq_packFlat_length {κ : Type} (fds : List (FieldDesc κ))
    (iss : List (IterSpace κ)) (h : ∀ fd ∈ fds, ∀ v, (fd.encode v).length = fd.dsize) :
    bufferSize iss fds = (packFlat fds iss).length := by
  rw [bufferSize, packFlat_length fds iss h, sum_comm_lists]

theorem drop_append_chunk {A Y : List Nat} {n : Nat} (hn : A.length = n) (m : Nat) :
    (A ++ Y).drop (n + m) = Y.drop m := by
  subst hn
  exact List.drop_append m

theorem packInner_spec {κ : Type} (fd : FieldDesc κ)
    (hl : ∀ v, (fd.encode v).length = fd.dsize) :
    ∀ (iss : List (IterSpace κ)) (buf : List Nat) (idx : Nat),
      idx + (packOne fd iss).length ≤ buf.length →
      packInner fd buf idx iss =
        (buf.take idx ++ packOne fd iss ++ buf.drop (idx + (packOne fd iss).length),
          idx + (packOne fd iss).length)
  | [], buf, idx, h => by
    simp [packInner, packOne, List.take_append_drop]
  | is :: iss, buf, idx, h => by
    have hbs : (fd.get is).length = is.size * fd.dsize := fieldGet_length fd hl is
    have hlen1 : idx + (fd.get is).length ≤ buf.length := by
      rw [packOne, List.length_append] at h
      omega
    have hidx : idx ≤ buf.length := by omega
    have htk : (buf.take idx).length = idx := by
      rw [List.length_take]
      omega
    have hw : writeAt buf idx (fd.get is)
        = (buf.take idx ++ fd.get is) ++ buf.drop (idx + (fd.get is).length) := rfl
    have hwlen : (writeAt buf idx (fd.get is)).length = buf.length := by
      rw [hw, List.length_append, List.length_append, htk, List.length_drop]
      omega
    have hrec := packInner_spec fd hl iss (writeAt buf idx (fd.get is))
      (idx + is.size * fd.dsize)
      (by
        rw [hwlen, ← hbs]
        rw [packOne, List.length_append] at h
        omega)
    have hpre : (buf.take idx ++ fd.get is).length = idx + is.size * fd.dsize := by
      rw [List.length_append, htk, hbs]
    have htake : (writeAt buf idx (fd.get is)).take (idx + is.size * fd.dsize)
        = buf.take idx ++ fd.get is := by
      rw [hw, List.take_left' hpre]
    have hdropw : (writeAt buf idx (fd.get is)).drop
        (idx + is.size * fd.dsize + (packOne fd iss).length)
        = buf.drop (idx + ((fd.get is).length + (packOne fd iss).length)) := by
      rw [hw, drop_append_chunk hpre, List.drop_drop]
      congr 1
      rw [hbs]
      omega
    rw [packInner, hrec, htake, hdropw]
    simp only [packOne, List.length_append]
    rw [hbs]
    simp [List.append_assoc, Nat.add_assoc]

theorem packOuter_spec {κ : Type} :
    ∀ (fds : List (FieldDesc κ)) (iss : List (IterSpace κ)) (buf : List Nat) (idx : Nat),
      (∀ fd ∈ fds, ∀ v, (fd.encode v).length = fd.dsize) →
      idx + (packFlat fds iss).length ≤ buf.length →
      packOuter buf idx fds iss =
        (buf.take idx ++ packFlat fds iss ++ buf.drop (idx + (packFlat fds iss).length),
          idx + (packFlat fds iss).length)
  | [], iss, buf, idx, _, h => by
    simp [packOuter, packFlat, List.take_append_drop]
  | fd :: fds, iss, buf, idx, hl, h => by
    have hl1 : ∀ v, (fd.encode v).length = fd.dsize := hl fd (List.mem_cons_self fd fds)
    have hlrest : ∀ x ∈ fds, ∀ v, (x.encode v).length = x.dsize :=
      fun x hx => hl x (List.mem_cons_of_mem fd hx)
    have hsplit : (packFlat (fd :: fds) iss).length
        = (packOne fd iss).length + (packFlat fds iss).length := by
      rw [packFlat, List.length_append]
    have h1 : idx + (packOne fd iss).length ≤ buf.length := by
      rw [hsplit] at h
      omega
    have hinner := packInner_spec fd hl1 iss buf idx h1
    have hidx : idx ≤ buf.length := by omega
    have htk : (buf.take idx).length = idx := by
      rw [List.length_take]
      omega
    have hpre : (buf.take idx ++ packOne fd iss).length
        = idx + (packOne fd iss).length := by
      rw [List.length_append, htk]
    have hb2 : buf.take idx ++ packOne fd iss ++ buf.drop (idx + (packOne fd iss).length)
        = (buf.take idx ++ packOne fd iss) ++ buf.drop (idx + (packOne fd iss).length) := rfl
    have hbuf2 : (buf.take idx ++ packOne fd iss
          ++ buf.drop (idx + (packOne fd iss).length)).length = buf.length := by
      rw [hb2, List.length_append, List.length_append, htk, List.length_drop]
      omega
    have hrec := packOuter_spec fds iss
      (buf.take idx ++ packOne fd iss ++ buf.drop (idx + (packOne fd iss).length))
      (idx + (packOne fd iss).length) hlrest
      (by
        rw [hbuf2]
        rw [hsplit] at h
        omega)
    have htake : (buf.take idx ++ packOne fd iss
          ++ buf.drop (idx + (packOne fd iss).length)).take (idx + (packOne fd iss).length)
        = buf.take idx ++ packOne fd iss := by
      rw [hb2, List.take_left' hpre]
    have hdropw : (buf.take idx ++ packOne fd iss
          ++ buf.drop (idx + (packOne fd iss).length)).drop
          (idx + (packOne fd iss).length + (packFlat fds iss).length)
        = buf.drop (idx + ((packOne fd iss).length + (packFlat fds iss).length)) := by
      rw [hb2, drop_append_chunk hpre, List.drop_drop]
      congr 1
      omega
    rw [packOuter, hinner, hrec, htake, hdropw]
    simp only [packFlat, List.length_append]
    simp [List.append_assoc, Nat.add_assoc]

theorem pack_eq_packFlat {κ : Type} (fds : List (FieldDesc κ)) (iss : List (IterSpace κ))
    (hl : ∀ fd ∈ fds, ∀ v, (fd.encode v).length = fd.dsize) :
    pack fds iss = packFlat fds iss := by
  have hsz := bufferSize_eq_packFlat_length fds iss hl
  have hspec := packOuter_spec fds iss (List.replicate (bufferSize iss fds) 0) 0 hl
    (by rw [List.length_replicate, hsz]; omega)
  rw [pack, hspec]
  rw [List.take_zero, List.nil_append, Nat.zero_add,
    List.drop_eq_nil_of_le (by rw [List.length_replicate, hsz]), List.append_nil]

theorem drop_append_exact {A Y : List Nat} {n : Nat} (hn : A.length = n) :
    (A ++ Y).drop n = Y := by
  subst hn
  rw [List.drop_left]

theorem setCells_dsize {κ : Type} [DecidableEq κ] :
    ∀ (cs : List κ) (fd : FieldDesc κ) (bytes : List Nat),
      (FieldDesc.setCells fd cs bytes).dsize = fd.dsize
  | [], fd, bytes => rfl
  | c :: cs, fd, bytes => setCells_dsize cs _ _

theorem setCells_decode {κ : Type} [DecidableEq κ] :
    ∀ (cs : List κ) (fd : FieldDesc κ) (bytes : List Nat),
      (FieldDesc.setCells fd cs bytes).decode = fd.decode
  | [], fd, bytes => rfl
  | c :: cs, fd, bytes => setCells_decode cs _ _

theorem setCells_correct {κ : Type} [DecidableEq κ] (sfd : FieldDesc κ)
    (hl : ∀ v, (sfd.encode v).length = sfd.dsize) :
    ∀ (cs : List κ) (rfd : FieldDesc κ) (extra : List Nat),
      rfd.dsize = sfd.dsize → (∀ v, rfd.decode (sfd.encode v) = v) →
      ∀ c0 : κ, (rfd.setCells cs (encodeCells sfd cs ++ extra)).val c0
        = if c0 ∈ cs then sfd.val c0 else rfd.val c0
  | [], rfd, extra, hd, hdec, c0 => by simp [FieldDesc.setCells, encodeCells]
  | c :: cs, rfd, extra, hd, hdec, c0 => by
    have hzip : encodeCells sfd (c :: cs) ++ extra
        = sfd.encode (sfd.val c) ++ (encodeCells sfd cs ++ extra) := by
      rw [encodeCells, List.append_assoc]
    rw [hzip, FieldDesc.setCells]
    have htake : (sfd.encode (sfd.val c) ++ (encodeCells sfd cs ++ extra)).take rfd.dsize
        = sfd.encode (sfd.val c) := by
      rw [hd, List.take_left' (hl _)]
    have hdrop : (sfd.encode (sfd.val c) ++ (encodeCells sfd cs ++ extra)).drop rfd.dsize
        = encodeCells sfd cs ++ extra := by
      rw [hd]
      exact drop_append_exact (hl _)
    rw [htake, hdrop, hdec]
    have ih := setCells_correct sfd hl cs
      { rfd with val := Function.update rfd.val c (sfd.val c) } extra hd hdec c0
    rw [ih]
    by_cases h1 : c0 ∈ cs
    · simp [h1]
    · by_cases h2 : c0 = c
      · subst h2
        simp [h1, Function.update_apply]
      · simp [h1, h2, Function.update_apply]

theorem unpackInner_spec {κ : Type} [DecidableEq κ] (sfd : FieldDesc κ)
    (hl : ∀ v, (sfd.encode v).length = sfd.dsize) :
    ∀ (iss : List (IterSpace κ)) (rfd : FieldDesc κ) (idx : Nat) (buf rest : List Nat),
      rfd.dsize = sfd.dsize → (∀ v, rfd.decode (sfd.encode v) = v) →
      buf.drop idx = packOne sfd iss ++ rest →
      (unpackInner rfd idx buf iss).2 = idx + (packOne sfd iss).length ∧
      ∀ c0 : κ, (unpackInner rfd idx buf iss).1.val c0
        = if c0 ∈ spaceCells iss then sfd.val c0 else rfd.val c0
  | [], rfd, idx, buf, rest, hd, hdec, hbuf => by
    simp [unpackInner, packOne, spaceCells]
  | is :: iss, rfd, idx, buf, rest, hd, hdec, hbuf => by
    have hbuf1 : buf.drop idx
        = encodeCells sfd is.coords ++ (packOne sfd iss ++ rest) := by
      rw [hbuf, packOne, List.append_assoc]
      rfl
    have hchunklen : (encodeCells sfd is.coords).length = is.size * sfd.dsize :=
      encodeCells_length sfd hl is.coords
    have hval1 : ∀ c0, (rfd.set is (buf.drop idx)).val c0
        = if c0 ∈ is.coords then sfd.val c0 else rfd.val c0 := by
      intro c0
      rw [FieldDesc.set, hbuf1]
      exact setCells_correct sfd hl is.coords rfd (packOne sfd iss ++ rest) hd hdec c0
    have hd1 : (rfd.set is (buf.drop idx)).dsize = sfd.dsize := by
      rw [FieldDesc.set, setCells_dsize]
      exact hd
    have hdec1 : ∀ v, (rfd.set is (buf.drop idx)).decode (sfd.encode v) = v := by
      intro v
      rw [FieldDesc.set, setCells_decode]
      exact hdec v
    have hadv : is.size * rfd.dsize = (encodeCells sfd is.coords).length := by
      rw [hchunklen, hd]
    have hbuf2 : buf.drop (idx + is.size * rfd.dsize) = packOne sfd iss ++ rest := by
      have hdd : buf.drop (idx + is.size * rfd.dsize)
          = (buf.drop idx).drop (is.size * rfd.dsize) := by
        rw [List.drop_drop]
      rw [hdd, hbuf1, hadv, drop_append_exact rfl]
    have ih := unpackInner_spec sfd hl iss (rfd.set is (buf.drop idx))
      (idx + is.size * rfd.dsize) buf rest hd1 hdec1 hbuf2
    have hgetlen : (sfd.get is).length = (encodeCells sfd is.coords).length := rfl
    constructor
    · rw [unpackInner, ih.1, packOne, List.length_append, hgetlen, ← hadv]
      omega
    · intro c0
      rw [unpackInner, ih.2 c0]
      have hsc : spaceCells (is :: iss) = is.coords ++ spaceCells iss := rfl
      by_cases ha : c0 ∈ spaceCells iss
      · have : c0 ∈ spaceCells (is :: iss) := by
          rw [hsc, List.mem_append]
          exact Or.inr ha
        rw [if_pos ha, if_pos this]
      · rw [if_neg ha, hval1 c0, hsc]
        by_cases hb : c0 ∈ is.coords
        · rw [if_pos hb, if_pos (by rw [List.mem_append]; exact Or.inl hb)]
        · rw [if_neg hb, if_neg (by rw [List.mem_append]; exact fun hcon => hcon.elim hb ha)]

theorem unpackOuter_roundtrip {κ : Type} [DecidableEq κ] (iss : List (IterSpace κ))
    (buf : List Nat) {sfs rfs : List (FieldDesc κ)}
    (hcompat : List.Forall₂ FieldCompat sfs rfs) :
    ∀ (idx : Nat) (rest : List Nat),
      buf.drop idx = packFlat sfs iss ++ rest →
      List.Forall₂ (fun sfd rfd2 => ∀ c0 ∈ spaceCells iss, rfd2.val c0 = sfd.val c0)
        sfs (unpackOuter rfs idx buf iss) := by
  induction hcompat with
  | nil =>
    intro idx rest hbuf
    exact List.Forall₂.nil
  | @cons sfd rfd sfs2 rfs2 hpair htail ih =>
    intro idx rest hbuf
    obtain ⟨hd, hl, hdec⟩ := hpair
    have hbuf1 : buf.drop idx = packOne sfd iss ++ (packFlat sfs2 iss ++ rest) := by
      rw [hbuf, packFlat, List.append_assoc]
    have hinner := unpackInner_spec sfd hl iss rfd idx buf
      (packFlat sfs2 iss ++ rest) hd hdec hbuf1
    have hbuf2 : buf.drop (unpackInner rfd idx buf iss).2 = packFlat sfs2 iss ++ rest := by
      rw [hinner.1]
      have hdd : buf.drop (idx + (packOne sfd iss).length)
          = (buf.drop idx).drop (packOne sfd iss).length := by
        rw [List.drop_drop]
      rw [hdd, hbuf1, drop_append_exact rfl]
    rw [unpackOuter]
    refine List.Forall₂.cons ?_ (ih _ _ hbuf2)
    intro c0 hc0
    rw [hinner.2 c0, if_pos hc0]

theorem mem_spaceCells {κ : Type} :
    ∀ {iss : List (IterSpace κ)} {is : IterSpace κ} {c : κ},
      is ∈ iss → c ∈ is.coords → c ∈ spaceCells iss
  | [], is, c, his, _ => absurd his (List.not_mem_nil is)
  | is2 :: iss, is, c, his, hc => by
    rw [spaceCells, List.mem_append]
    rcases List.mem_cons.mp his with h | h
    · exact Or.inl (h ▸ hc)
    · exact Or.inr (mem_spaceCells h hc)

theorem forall₂_mem_left {β : Type} {R : β → β → Prop} :
    ∀ {l1 l2 : List β}, List.Forall₂ R l1 l2 → ∀ a ∈ l1, ∃ b ∈ l2, R a b := by
  intro l1 l2 h
  induction h with
  | nil => intro a ha; exact absurd ha (List.not_mem_nil a)
  | @cons x y l1t l2t hxy htail ih =>
    intro a ha
    rcases List.mem_cons.mp ha with h | h
    · exact ⟨y, List.mem_cons_self y l2t, h ▸ hxy⟩
    · obtain ⟨b, hb, hab⟩ := ih a h
      exact ⟨b, List.mem_cons_of_mem y hb, hab⟩

/-- **C1.** Pack/unpack round trip: `communication_object::pack` and
`handle::unpack` traverse a halo in the identical mirrored order (outer loop
over the field descriptors, inner loop over the iteration spaces, one running
`buffer_index`), so that for every tuple of compatible field descriptors and
every halo, unpacking the buffer that pack produced writes back to every halo
cell exactly the value the sender's field held at the same (global) cell. -/
theorem C1_pack_unpack_roundtrip {κ : Type} [DecidableEq κ]
    (sfs rfs : List (FieldDesc κ)) (iss : List (IterSpace κ))
    (hcompat : List.Forall₂ FieldCompat sfs rfs) :
    List.Forall₂ (fun sfd rfd2 => ∀ is ∈ iss, ∀ c ∈ is.coords, rfd2.val c = sfd.val c)
      sfs (unpack rfs iss (pack sfs iss)) := by
  have hl : ∀ fd ∈ sfs, ∀ v, (fd.encode v).length = fd.dsize := by
    intro fd hfd
    obtain ⟨rfd, -, hc⟩ := forall₂_mem_left hcompat fd hfd
    exact hc.2.1
  have hpack : pack sfs iss = packFlat sfs iss := pack_eq_packFlat sfs iss hl
  have hbuf : (pack sfs iss).drop 0 = packFlat sfs iss ++ [] := by
    rw [List.drop_zero, hpack, List.append_nil]
  have h := unpackOuter_roundtrip iss (pack sfs iss) hcompat 0 [] hbuf
  rw [unpack]
  refine h.imp ?_
  intro sfd rfd2 hval is his c hc
  exact hval c (mem_spaceCells his hc)

/-- Witness for C1: two sender fields of data type sizes 1 and 2 over a halo
of two iteration spaces, unpacked into zero-initialized receiver fields. -/
theorem C1_witness :
    List.Forall₂ FieldCompat [sfEx0, sfEx1] [rfEx0, rfEx1] ∧
    List.Forall₂ (fun sfd rfd2 => ∀ is ∈ issEx, ∀ c ∈ is.coords, rfd2.val c = sfd.val c)
      [sfEx0, sfEx1] (unpack [rfEx0, rfEx1] issEx (pack [sfEx0, sfEx1] issEx)) :=
  ⟨List.Forall₂.cons ⟨rfl, fun v => rfl, fun v => rfl⟩
      (List.Forall₂.cons ⟨rfl, fun v => rfl, fun v => rfl⟩ List.Forall₂.nil),
    C1_pack_unpack_roundtrip [sfEx0, sfEx1] [rfEx0, rfEx1] issEx
      (List.Forall₂.cons ⟨rfl, fun v => rfl, fun v => rfl⟩
        (List.Forall₂.cons ⟨rfl, fun v => rfl, fun v => rfl⟩ List.Forall₂.nil))⟩

/-- Witness for C3 at concrete ordered halo lists. -/
theorem C3_witness :
    List.Chain' (fun a b => orderedIdLt a b = true) recvsEx ∧
    (((exchangeRun recvsEx sendsEx).1.filterMap ExchangeEvent.postRecvId = recvsEx ∧
      List.Chain' (fun a b => orderedIdLt a b = true)
        ((exchangeRun recvsEx sendsEx).1.filterMap ExchangeEvent.postRecvId)) ∧
    (∀ i j (hi : i < (exchangeRun recvsEx sendsEx).1.length)
        (hj : j < (exchangeRun recvsEx sendsEx).1.length),
        ((exchangeRun recvsEx sendsEx).1.get ⟨i, hi⟩).isPostRecv = true →
        ((exchangeRun recvsEx sendsEx).1.get ⟨j, hj⟩).isPostSend = true → i < j) ∧
    (exchangeRun recvsEx sendsEx).1.filterMap ExchangeEvent.waitSendId = sendsEx ∧
    handleWaitRun [] (exchangeRun recvsEx sendsEx).2 = waitRecvEvents recvsEx) :=
  ⟨List.chain'_cons.mpr ⟨by decide, List.chain'_singleton _⟩,
    C3_exchange_ordering recvsEx sendsEx
      (List.chain'_cons.mpr ⟨by decide, List.chain'_singleton _⟩)⟩

end GhexVerif
